import Mathlib

/-!
A verification development for `midi_util.py`, a codec for the Standard MIDI
File format together with tick/microsecond time conversion.

The Python source is shallowly embedded: the mutable `ByteData` cursor becomes
a list of remaining bytes threaded through each decoder (a byte is a `Nat`;
the source guarantees `< 256` via Python `bytes`), Python `assert` failures
become `Except.error` values of the error taxonomy, and the in-place
dictionary updates of the time converters become functional record updates.
Python's `//` on possibly-negative integers is floor division, embedded as
`Int.fdiv`.
-/

namespace MidiUtil

/-- Error taxonomy: one constructor per distinct failure site of the source
(every one is a Python `assert`/`KeyError`, named per its message/intent). -/
inductive Err where
  /-- `ByteData.read`: "oversized read or unexpected EOS" -/
  | unexpectedEndOfData
  /-- `RunningStatus.get`: "tried to use running status while not set" -/
  | runningStatusUnset
  /-- `dec_meta_event` end-of-track checks: terminator byte not `0x00`, or
  "reached end of track marker before end of track data" -/
  | malformedEndOfTrack
  /-- `dec_meta_event` tempo branch: length byte not `0x03` -/
  | malformedTempoLength
  /-- `dec_event`: "unknown event type" -/
  | unknownEventStatus
  /-- `get_ticks_per_beat`: "SMPTE format not yet supported" -/
  | unsupportedDivisionFormat
  /-- `decode_midi`: "header chunk is missing" -/
  | missingHeaderChunk
  /-- `decode_midi`: "wrong number of tracks" -/
  | trackCountMismatch
  /-- `enc_event`: "Can't parse event for encoding" / missing `dt` key -/
  | unencodableEvent
deriving DecidableEq, Repr

/-- `ByteData.read n`: the next `n` bytes and the rest, or the EOS error. -/
def readBytes (n : Nat) (l : List Nat) : Except Err (List Nat × List Nat) :=
  if n ≤ l.length then .ok (l.take n, l.drop n) else .error .unexpectedEndOfData

/-- `enc_16`: two big-endian bytes. -/
def enc_16 (x : Nat) : List Nat :=
  [x / 256, x % 256]

/-- `dec_16`: read two bytes, big-endian. -/
def dec_16 (l : List Nat) : Except Err (Nat × List Nat) := do
  let (bs, rest) ← readBytes 2 l
  match bs with
  | [x256, x1] => pure (256 * x256 + x1, rest)
  | _ => pure (0, rest)  -- unreachable: readBytes 2 returns two bytes

/-- `enc_32`: the four-iteration divide-and-collect loop of the source,
unrolled (it always runs exactly four times and reverses). -/
def enc_32 (x : Nat) : List Nat :=
  [x / 16777216 % 256, x / 65536 % 256, x / 256 % 256, x % 256]

/-- `dec_32`: read four bytes, fold big-endian. -/
def dec_32 (l : List Nat) : Except Err (Nat × List Nat) := do
  let (bs, rest) ← readBytes 4 l
  pure (bs.foldl (fun ans b => 256 * ans + b) 0, rest)

/-- The loop of `enc_vl`: prepend base-128 digits of `q` (with the high
continuation bit set) until `q` is zero.  The source's `while` loop is
embedded with explicit fuel; `q` itself is enough fuel since `q` strictly
shrinks by division each iteration. -/
def enc_vl_go : Nat → Nat → List Nat → List Nat
  | 0, _, acc => acc
  | fuel + 1, q, acc =>
    if q = 0 then acc else enc_vl_go fuel (q / 128) ((128 ||| q % 128) :: acc)

/-- `enc_vl`: MIDI variable-length encoding. -/
def enc_vl (x : Nat) : List Nat :=
  enc_vl_go x (x / 128) [x % 128]

/-- The loop of `dec_vl`: `b` is the byte just consumed, `ans` the value so
far; keep reading while the continuation bit of `b` is set. -/
def dec_vl_go (ans b : Nat) (l : List Nat) : Except Err (Nat × List Nat) :=
  if b &&& 128 = 0 then .ok (ans, l)
  else
    match l with
    | [] => .error .unexpectedEndOfData
    | b2 :: rest => dec_vl_go (ans * 128 + b2 % 128) b2 rest

/-- `dec_vl`: MIDI variable-length decoding. -/
def dec_vl (l : List Nat) : Except Err (Nat × List Nat) :=
  match l with
  | [] => .error .unexpectedEndOfData
  | b :: rest => dec_vl_go (b % 128) b rest

/-- `bd.read(1)[0]`: one byte. -/
def read1 (l : List Nat) : Except Err (Nat × List Nat) :=
  match l with
  | [] => .error .unexpectedEndOfData
  | b :: rest => .ok (b, rest)

/-- The event model: the tagged variants the decoder's dictionaries take.
`midi_code` keeps both the `chan` and full `status` keys, as the source
dictionaries do. -/
inductive EventBody where
  | note_on (chan note velocity : Nat)
  | note_off (chan note velocity : Nat)
  | setinst (chan inst : Nat)
  | midi_code (chan status : Nat) (data : List Nat)
  | system (status : Nat) (data : List Nat)
  | meta_text (code : Nat) (text : List Nat)
  | end_track
  | tempo (tempo : Nat)
  | meta_code (code : Nat) (data : List Nat)
deriving DecidableEq, Repr

/-- An event: a body plus the two mutually exclusive time keys of the source
dictionaries, `dt` (ticks, relative) and `t` (first absolute ticks, then
absolute microseconds), each present (`some`) or absent (`none`). -/
structure Event where
  dt : Option Int := none
  t : Option Int := none
  body : EventBody
deriving DecidableEq, Repr

/-- `READLEN_TABLE`: fixed data lengths for raw channel-voice statuses.  The
`0` default stands for the source's `KeyError`, which is unreachable: the
only lookups are from `dec_midi_event`'s final branch, where the high nibble
is one of the four keys. -/
def READLEN_TABLE (s : Nat) : Nat :=
  if s = 0xa0 then 2 else if s = 0xb0 then 2
  else if s = 0xd0 then 1 else if s = 0xe0 then 2 else 0

/-- `dec_meta_event`: body of a meta event, after the `0xff` prefix. -/
def dec_meta_event (l : List Nat) : Except Err (EventBody × List Nat) := do
  let (subtype, l) ← read1 l
  if 0x01 ≤ subtype ∧ subtype ≤ 0x0f then do
    let (length, l) ← dec_vl l
    let (text, l) ← readBytes length l
    pure (.meta_text subtype text, l)
  else if subtype = 0x2f then do
    let (b, l) ← read1 l
    if b = 0x00 then
      if l = [] then pure (.end_track, l)
      else .error .malformedEndOfTrack
    else .error .malformedEndOfTrack
  else if subtype = 0x51 then do
    let (b, l) ← read1 l
    if b = 0x03 then do
      let (tempo_256, l) ← dec_16 l
      let (tempo_1, l) ← read1 l
      pure (.tempo (256 * tempo_256 + tempo_1), l)
    else .error .malformedTempoLength
  else do
    let (length, l) ← dec_vl l
    let (data, l) ← readBytes length l
    pure (.meta_code subtype data, l)

/-- `dec_midi_event`: body of a channel-voice event for a given status. -/
def dec_midi_event (status : Nat) (l : List Nat) :
    Except Err (EventBody × List Nat) :=
  let chan := status &&& 0x0f
  if status &&& 0xf0 = 0xc0 then do
    let (inst, l) ← read1 l
    pure (.setinst chan inst, l)
  else if status &&& 0xf0 = 0x80 then do
    let (note, l) ← read1 l
    let (velocity, l) ← read1 l
    pure (.note_off chan note velocity, l)
  else if status &&& 0xf0 = 0x90 then do
    let (note, l) ← read1 l
    let (velocity, l) ← read1 l
    if velocity = 0 then
      pure (.note_off chan note 64, l)
    else
      pure (.note_on chan note velocity, l)
  else do
    let (data, l) ← readBytes (READLEN_TABLE (status &&& 0xf0)) l
    pure (.midi_code chan status data, l)

/-- `dec_event`: one delta-time-prefixed event.  The running-status cell is
threaded explicitly as an `Option Nat`; `bd.dec()` (the one-byte step back of
the cursor) is embedded by handing the pre-status-byte list back to
`dec_midi_event`. -/
def dec_event (l : List Nat) (rs : Option Nat) :
    Except Err (Event × Option Nat × List Nat) := do
  let (delta_t, l) ← dec_vl l
  let (status, l1) ← read1 l
  if 0xf0 ≤ status ∧ status ≤ 0xf7 then do
    let (length, l2) ← dec_vl l1
    let (data, l3) ← readBytes length l2
    pure (⟨some (delta_t : Int), none, .system status data⟩, none, l3)
  else if status = 0xff then do
    let (body, l2) ← dec_meta_event l1
    pure (⟨some (delta_t : Int), none, body⟩, rs, l2)
  else if 0x80 ≤ status ∧ status ≤ 0xef then do
    let (body, l2) ← dec_midi_event status l1
    pure (⟨some (delta_t : Int), none, body⟩, some status, l2)
  else if status < 0x80 then
    match rs with
    | none => .error .runningStatusUnset
    | some s => do
      let (body, l2) ← dec_midi_event s l
      pure (⟨some (delta_t : Int), none, body⟩, rs, l2)
  else .error .unknownEventStatus

/-- The `while bd.remaining() > 0` loop of `dec_events`, with fuel; the entry
point passes the list length, which always suffices because each event
consumes at least one byte. -/
def dec_events_go : Nat → Option Nat → List Nat → Except Err (List Event)
  | _, _, [] => .ok []
  | 0, _, _ :: _ => .error .unexpectedEndOfData
  | fuel + 1, rs, b :: l => do
    let (e, rs', l') ← dec_event (b :: l) rs
    let es ← dec_events_go fuel rs' l'
    pure (e :: es)

/-- `dec_events`: all events of one track chunk's content. -/
def dec_events (l : List Nat) : Except Err (List Event) :=
  dec_events_go l.length none l

def TAG_HEADER : List Nat := [0x4d, 0x54, 0x68, 0x64]

def TAG_TRACK : List Nat := [0x4d, 0x54, 0x72, 0x6b]

/-- `get_ticks_per_beat`: reject SMPTE division codes, keep the low 15 bits. -/
def get_ticks_per_beat (division_code : Nat) : Except Err Nat :=
  if division_code &&& 0x8000 ≠ 0 then .error .unsupportedDivisionFormat
  else .ok (division_code &&& 0x7fff)

/-- A decoded chunk. -/
inductive Chunk where
  | header (formt n_tracks ticks_per_beat : Nat)
  | track (events : List Event)
  | unknown
deriving DecidableEq, Repr

/-- `dec_chunk`: tag, 32-bit length, then the content parsed by tag. -/
def dec_chunk (l : List Nat) : Except Err (Chunk × List Nat) := do
  let (chunktype_tag, l) ← readBytes 4 l
  let (length, l) ← dec_32 l
  let (content, l) ← readBytes length l
  if chunktype_tag = TAG_HEADER then do
    let (formt, content) ← dec_16 content
    let (n_tracks, content) ← dec_16 content
    let (division, _) ← dec_16 content
    let tpb ← get_ticks_per_beat division
    pure (.header formt n_tracks tpb, l)
  else if chunktype_tag = TAG_TRACK then do
    let events ← dec_events content
    pure (.track events, l)
  else
    pure (.unknown, l)

/-- The `while bd.remaining() > 0` loop of `dec_chunks`, with fuel. -/
def dec_chunks_go : Nat → List Nat → Except Err (List Chunk)
  | _, [] => .ok []
  | 0, _ :: _ => .error .unexpectedEndOfData
  | fuel + 1, b :: l => do
    let (c, l') ← dec_chunk (b :: l)
    let cs ← dec_chunks_go fuel l'
    pure (c :: cs)

/-- `dec_chunks`. -/
def dec_chunks (l : List Nat) : Except Err (List Chunk) :=
  dec_chunks_go l.length l

/-- The decoded file: the dictionary `decode_midi` returns. -/
structure MidiFile where
  format : Nat
  ticks_per_beat : Nat
  tracks : List (List Event)
deriving DecidableEq, Repr

/-- The list comprehension of `decode_midi` keeps track chunks only; this is
its per-chunk selection, combined below with the `track["events"]`
projection. -/
def track_events_of_chunk : Chunk → Option (List Event)
  | .track evs => some evs
  | _ => none

/-- `decode_midi`: parse all chunks, demand a leading header, collect track
chunks, check the declared track count.  (On an empty chunk list the source
raises `IndexError` at `chunks[0]`; it is mapped to the missing-header
error.) -/
def decode_midi (midi_bytes : List Nat) : Except Err MidiFile := do
  let chunks ← dec_chunks midi_bytes
  match chunks with
  | [] => .error .missingHeaderChunk
  | header_chunk :: _ =>
    match header_chunk with
    | .header formt n_tracks tpb =>
      let tracks := chunks.filterMap track_events_of_chunk
      if n_tracks = tracks.length then
        pure { format := formt, ticks_per_beat := tpb, tracks := tracks }
      else
        .error .trackCountMismatch
    | _ => .error .missingHeaderChunk

/-- `enc_event`: the canonical byte encoding of one event.  A missing `dt`
key would be a `KeyError` in the source; the source's trailing asserts for
unrecognized type strings cannot arise in the closed variant type. -/
def enc_event (event : Event) : Except Err (List Nat) := do
  match event.dt with
  | none => .error .unencodableEvent
  | some d =>
    let dt := enc_vl d.toNat
    match event.body with
    | .note_off chan note velocity => pure (dt ++ [0x80 + chan, note, velocity])
    | .note_on chan note velocity => pure (dt ++ [0x90 + chan, note, velocity])
    | .setinst chan inst => pure (dt ++ [0xc0 + chan, inst])
    | .midi_code _ status data => pure (dt ++ status :: data)
    | .system status data => pure (dt ++ status :: (enc_vl data.length ++ data))
    | .end_track => pure (dt ++ [0xff, 0x2f, 0x00])
    | .tempo tempo =>
      pure (dt ++ [0xff, 0x51, 0x03] ++ enc_16 (tempo / 256) ++ [tempo % 256])
    | .meta_code code data =>
      pure (dt ++ [0xff, code] ++ enc_vl data.length ++ data)
    | .meta_text code text =>
      pure (dt ++ [0xff, code] ++ enc_vl text.length ++ text)

/-- The concatenation of the events' encodings (the `b"".join` of
`track_chunk`). -/
def enc_events : List Event → Except Err (List Nat)
  | [] => .ok []
  | e :: es => do
    let b ← enc_event e
    let bs ← enc_events es
    pure (b ++ bs)

/-- `header_chunk`. -/
def header_chunk (formt ntrks division : Nat) : List Nat :=
  let contents := enc_16 formt ++ enc_16 ntrks ++ enc_16 division
  TAG_HEADER ++ enc_32 contents.length ++ contents

/-- `track_chunk`. -/
def track_chunk (events : List Event) : Except Err (List Nat) := do
  let contents ← enc_events events
  pure (TAG_TRACK ++ enc_32 contents.length ++ contents)

/-- The track-chunk loop of `encode_midi`. -/
def enc_tracks : List (List Event) → Except Err (List Nat)
  | [] => .ok []
  | tr :: trs => do
    let c ← track_chunk tr
    let cs ← enc_tracks trs
    pure (c ++ cs)

/-- `encode_midi`: header chunk, then one track chunk per track. -/
def encode_midi (mididata : MidiFile) : Except Err (List Nat) := do
  let rest ← enc_tracks mididata.tracks
  pure (header_chunk mididata.format mididata.tracks.length
    mididata.ticks_per_beat ++ rest)

deriving instance DecidableEq for Except

/-- Validity of an event body per the data model (§3 of the spec): field
ranges, payloads that are genuine bytes, raw channel-voice statuses drawn
from the lookup table with matching payload length and channel, and meta
codes outside the specially-shaped subtypes. -/
def validBody : EventBody → Bool
  | .note_on chan note velocity =>
    decide (chan < 16) && decide (note < 128) &&
      decide (1 ≤ velocity) && decide (velocity < 128)
  | .note_off chan note velocity =>
    decide (chan < 16) && decide (note < 128) && decide (velocity < 128)
  | .setinst chan inst => decide (chan < 16) && decide (inst < 128)
  | .midi_code chan status data =>
    (decide (status &&& 0xf0 = 0xa0) || decide (status &&& 0xf0 = 0xb0) ||
      decide (status &&& 0xf0 = 0xd0) || decide (status &&& 0xf0 = 0xe0)) &&
      decide (status < 256) && decide (chan = status &&& 0x0f) &&
      decide (data.length = READLEN_TABLE (status &&& 0xf0)) &&
      data.all (fun b => decide (b < 256))
  | .system status data =>
    decide (0xf0 ≤ status) && decide (status ≤ 0xf7) &&
      data.all (fun b => decide (b < 256))
  | .meta_text code text =>
    decide (0x01 ≤ code) && decide (code ≤ 0x0f) &&
      text.all (fun b => decide (b < 256))
  | .end_track => true
  | .tempo tempo => decide (tempo < 16777216)
  | .meta_code code data =>
    decide (code < 256) && !(decide (0x01 ≤ code) && decide (code ≤ 0x0f)) &&
      decide (code ≠ 0x2f) && decide (code ≠ 0x51) &&
      data.all (fun b => decide (b < 256))

/-- A valid tick-mode event: a nonnegative `dt`, no `t` key, a valid body. -/
def validEvent (e : Event) : Bool :=
  (match e.dt with
   | some d => decide (0 ≤ d)
   | none => false) && e.t.isNone && validBody e.body

/-- A valid track: valid events, and an end-of-track marker only as the
final event (the decoder requires the marker to close its chunk). -/
def validEvents : List Event → Bool
  | [] => true
  | e :: es =>
    validEvent e && (!decide (e.body = .end_track) || es.isEmpty) &&
      validEvents es

/-- A syntactically valid `MidiFile` value: 16-bit format and track count, a
15-bit (non-SMPTE) `ticks_per_beat`, valid tracks whose encoded content fits
the 32-bit chunk length field. -/
def validMidi (m : MidiFile) : Bool :=
  decide (m.format < 65536) && decide (m.tracks.length < 65536) &&
    decide (m.ticks_per_beat < 0x8000) &&
    m.tracks.all fun tr =>
      validEvents tr &&
        match enc_events tr with
        | .ok bs => decide (bs.length < 4294967296)
        | .error _ => false

/-- The running-status cell after decoding an event of the given body, per
§4.3: explicit channel-voice statuses set it, system events clear it, meta
events (and running-status continuations) leave it alone. -/
def nextRS (b : EventBody) (rs : Option Nat) : Option Nat :=
  match b with
  | .note_on chan _ _ => some (0x90 + chan)
  | .note_off chan _ _ => some (0x80 + chan)
  | .setinst chan _ => some (0xc0 + chan)
  | .midi_code _ status _ => some status
  | .system _ _ => none
  | _ => rs

/-- `is_tempo_event`. -/
def is_tempo_event (e : Event) : Bool :=
  match e.body with
  | .tempo _ => true
  | _ => false

/-- The scan of `get_initial_tempo` over track 0. -/
def first_tempo : List Event → Option Nat
  | [] => none
  | e :: es =>
    match e.body with
    | .tempo tempo => some tempo
    | _ => first_tempo es

/-- `get_initial_tempo`: first tempo event of track 0, else the 120 BPM
default of 500000 µs/beat.  (The source indexes `tracks[0]` and would raise
`IndexError` on an empty track list; here that case takes the default.) -/
def get_initial_tempo (mididata : MidiFile) : Nat :=
  (first_tempo (mididata.tracks.headD [])).getD 500000

/-- The loop of `convert_to_absolute_ticks`: running prefix sum of `dt`,
stored as `t`, with `dt` deleted.  (A missing `dt` key would be a `KeyError`
in the source; it is read as 0 here, and the converter claims assume
tick-mode input.) -/
def convert_to_absolute_ticks_go (t : Int) : List Event → List Event
  | [] => []
  | e :: es =>
    let t' := t + e.dt.getD 0
    { e with dt := none, t := some t' } :: convert_to_absolute_ticks_go t' es

/-- `convert_to_absolute_ticks`. -/
def convert_to_absolute_ticks (track : List Event) : List Event :=
  convert_to_absolute_ticks_go 0 track

/-- A shared event object, identified across the merged list and its owning
track by (track index, position in track): the stand-in for Python object
identity in `convert_to_absolute_time`'s in-place mutation. -/
abbrev TaggedEvent := (Nat × Nat) × Event

/-- The `all_events` gathering loop: every track's events, tagged with their
addresses. -/
def tag_tracks (tracks : List (List Event)) : List TaggedEvent :=
  (tracks.enum.map fun p => p.2.enum.map fun q => ((p.1, q.1), q.2)).flatten

/-- The sort key of `all_events.sort`: the event's `t`. -/
def sort_key (te : TaggedEvent) : Int :=
  te.2.t.getD 0

/-- Stable insertion of a later element after all earlier elements of
smaller-or-equal key. -/
def sort_insert (x : TaggedEvent) : List TaggedEvent → List TaggedEvent
  | [] => [x]
  | y :: ys => if sort_key y < sort_key x then y :: sort_insert x ys else x :: y :: ys

/-- A stable ascending sort by `t`, modelling Python's stable `list.sort`
(all stable comparison sorts compute the same function of the list). -/
def sort_by_t : List TaggedEvent → List TaggedEvent
  | [] => []
  | x :: xs => sort_insert x (sort_by_t xs)

/-- The tempo sweep of `convert_to_absolute_time`: walk the merged sorted
events once, carrying `tempo`, `t_tc_ticks` and `t_tc_us`; each event's `t`
becomes microseconds computed against the last tempo change, and a tempo
event updates the carried state only after its own timestamp is computed. -/
def time_sweep (tpb : Nat) (tempo : Nat) (t_tc_ticks t_tc_us : Int) :
    List TaggedEvent → List TaggedEvent
  | [] => []
  | te :: rest =>
    let t_ticks : Int := te.2.t.getD 0
    let ticks_since_tc := t_ticks - t_tc_ticks
    let us_since_tc := (ticks_since_tc * (tempo : Int)).fdiv (tpb : Int)
    let t_us := t_tc_us + us_since_tc
    let e' := { te.2 with t := some t_us }
    match te.2.body with
    | .tempo newTempo =>
      (te.1, e') :: time_sweep tpb newTempo t_ticks t_us rest
    | _ => (te.1, e') :: time_sweep tpb tempo t_tc_ticks t_tc_us rest

/-- The merged event list of `convert_to_absolute_time` after the tempo
sweep: all tracks tick-converted, gathered, stably sorted by tick, and swept
(the converter's local `all_events` at the end of its loop). -/
def abs_time_swept (mididata : MidiFile) : List TaggedEvent :=
  let tracks := mididata.tracks.map convert_to_absolute_ticks
  time_sweep mididata.ticks_per_beat
    (get_initial_tempo { mididata with tracks := tracks }) 0 0
    (sort_by_t (tag_tracks tracks))

/-- `convert_to_absolute_time`: per-track prefix sums to absolute ticks, a
stable merge of all tracks sorted by tick, one tempo sweep over the merged
list, and (modelling the source's mutation of shared event objects) each
track position picks up its own swept event by address. -/
def convert_to_absolute_time (mididata : MidiFile) : MidiFile :=
  let tracks := mididata.tracks.map convert_to_absolute_ticks
  { mididata with
    tracks := tracks.enum.map fun p =>
      p.2.enum.map fun q =>
        ((((abs_time_swept mididata).find? fun te =>
            decide (te.1 = (p.1, q.1))).map (·.2)).getD q.2) }

/-- The per-track loop of `convert_to_relative_time`: each event's absolute
microseconds become ticks under the one constant tempo, and `dt` is the
difference from the previous event's ticks.  (The source's unused
`t_prev_event` variable is dead and omitted; a missing `t` key would be a
`KeyError`, read as 0 here.) -/
def rel_track (tpb tempo : Nat) (t_ticks : Int) : List Event → List Event
  | [] => []
  | e :: es =>
    let new_t_ticks := ((e.t.getD 0) * (tpb : Int)).fdiv (tempo : Int)
    let dt := new_t_ticks - t_ticks
    { e with t := none, dt := some dt } :: rel_track tpb tempo new_t_ticks es

/-- `convert_to_relative_time`: fix the effective tempo, strip every tempo
event, reinsert one synthesized tempo event at the start of track 0, then
convert each track to delta ticks.  (With no tracks the source would raise
`IndexError` at the reinsertion; that case returns no tracks here.) -/
def convert_to_relative_time (mididata : MidiFile) : MidiFile :=
  let tempo := get_initial_tempo mididata
  let tpb := mididata.ticks_per_beat
  let stripped := mididata.tracks.map fun track =>
    track.filter fun e => !is_tempo_event e
  let initial_tempo_event : Event := { dt := none, t := some 0, body := .tempo tempo }
  let tracks2 :=
    match stripped with
    | [] => []
    | tr0 :: rest => (initial_tempo_event :: tr0) :: rest
  { mididata with tracks := tracks2.map fun track => rel_track tpb tempo 0 track }

/-- The spec's minimal example file: one track with a note pair and an
end-of-track marker (used to witness the round-trip claims). -/
def exampleFile : MidiFile :=
  { format := 1, ticks_per_beat := 480,
    tracks := [[⟨some 0, none, .note_on 0 60 100⟩,
                ⟨some 480, none, .note_off 0 60 64⟩,
                ⟨some 0, none, .end_track⟩]] }

/-- The spec's tempo-sweep example: `ticks_per_beat = 480`, initial tempo
500000 µs/beat, a tempo change to 250000 at tick 480, a note at tick 960. -/
def tempoSweepFile : MidiFile :=
  { format := 0, ticks_per_beat := 480,
    tracks := [[⟨some 0, none, .tempo 500000⟩,
                ⟨some 480, none, .tempo 250000⟩,
                ⟨some 480, none, .note_on 0 60 100⟩]] }

-- Facts about bytes and the 128 continuation bit, all decided on the
-- bounded range of a low 7-bit value.
theorem lor128_eq_add {m : Nat} (h : m < 128) : 128 ||| m = 128 + m := by
  revert m; decide

theorem lor128_land (m : Nat) (h : m < 128) : (128 ||| m) &&& 128 ≠ 0 := by
  revert m; decide

theorem lt128_land (m : Nat) (h : m < 128) : m &&& 128 = 0 := by
  revert m; decide

theorem lor128_mod (m : Nat) (h : m < 128) : (128 ||| m) % 128 = m := by
  revert m; decide

/-- `dec_vl` is just `dec_vl_go` started with a saturated continuation bit. -/
theorem dec_vl_eq_go (l : List Nat) : dec_vl l = dec_vl_go 0 255 l := by
  cases l with
  | nil => rfl
  | cons b rest =>
    show dec_vl_go (b % 128) b rest = dec_vl_go 0 255 (b :: rest)
    rw [dec_vl_go, if_neg (by decide)]
    norm_num

/-- Decoding consumes the continuation digits that `enc_vl_go` prepends,
shifting them into the accumulator. -/
theorem dec_vl_go_enc_go (q : Nat) :
    ∀ fuel v b tail, q ≤ fuel → b &&& 128 ≠ 0 →
      ∃ b', b' &&& 128 ≠ 0 ∧ ∃ k, dec_vl_go v b (enc_vl_go fuel q tail) =
        dec_vl_go (v * 128 ^ k + q) b' tail := by
  induction q using Nat.strong_induction_on with
  | _ q ih =>
    intro fuel v b tail hfuel hb
    match fuel with
    | 0 =>
      interval_cases q
      exact ⟨b, hb, 0, by simp [enc_vl_go]⟩
    | fuel + 1 =>
      by_cases hq : q = 0
      · subst hq
        exact ⟨b, hb, 0, by simp [enc_vl_go]⟩
      · rw [enc_vl_go, if_neg hq]
        have hqpos : 0 < q := Nat.pos_of_ne_zero hq
        have hdiv : q / 128 < q := Nat.div_lt_self hqpos (by norm_num)
        have hfuel' : q / 128 ≤ fuel := by omega
        obtain ⟨b', hb', k, hk⟩ :=
          ih (q / 128) hdiv fuel v b ((128 ||| q % 128) :: tail) hfuel' hb
        rw [hk, dec_vl_go, if_neg hb']
        refine ⟨128 ||| q % 128, lor128_land _ (Nat.mod_lt _ (by norm_num)), k + 1, ?_⟩
        rw [lor128_mod _ (Nat.mod_lt _ (by norm_num))]
        ring_nf
        congr 1
        omega

/-- VLQ round-trip with an arbitrary byte tail: decoding the encoding of `x`
yields `x` and leaves the tail untouched. -/
theorem dec_vl_enc_vl (x : Nat) (rest : List Nat) :
    dec_vl (enc_vl x ++ rest) = .ok (x, rest) := by
  rw [dec_vl_eq_go, enc_vl]
  have happ : ∀ fuel q tail r,
      enc_vl_go fuel q tail ++ r = enc_vl_go fuel q (tail ++ r) := by
    intro fuel
    induction fuel with
    | zero => intro q tail r; rfl
    | succ fuel ihf =>
      intro q tail r
      by_cases hq : q = 0
      · simp [enc_vl_go, hq]
      · rw [enc_vl_go, if_neg hq, enc_vl_go, if_neg hq, ihf]; rfl
  rw [happ]
  simp only [List.singleton_append]
  obtain ⟨b', hb', k, hk⟩ :=
    dec_vl_go_enc_go (x / 128) x 0 255 (x % 128 :: rest) (Nat.div_le_self x 128)
      (by decide)
  rw [hk, dec_vl_go, if_neg hb']
  show dec_vl_go ((0 * 128 ^ k + x / 128) * 128 + x % 128 % 128) (x % 128) rest =
    .ok (x, rest)
  rw [dec_vl_go.eq_def, if_pos (lt128_land _ (Nat.mod_lt _ (by norm_num)))]
  have : (0 * 128 ^ k + x / 128) * 128 + x % 128 % 128 = x := by omega
  rw [this]

-- Small unfolding lemmas for the reader primitives and the `Except` monad.

@[simp] theorem ok_bind {α β : Type} (a : α) (f : α → Except Err β) :
    (Except.ok a >>= f) = f a := rfl

@[simp] theorem pure_eq_ok {α : Type} (a : α) :
    (pure a : Except Err α) = .ok a := rfl

@[simp] theorem error_bind {α β : Type} (e : Err) (f : α → Except Err β) :
    ((Except.error e : Except Err α) >>= f) = .error e := rfl

@[simp] theorem read1_cons (b : Nat) (l : List Nat) :
    read1 (b :: l) = .ok (b, l) := rfl

@[simp] theorem read1_nil : read1 [] = .error .unexpectedEndOfData := rfl

theorem readBytes_append (n : Nat) (xs rest : List Nat) (h : xs.length = n) :
    readBytes n (xs ++ rest) = .ok (xs, rest) := by
  subst h
  rw [readBytes, if_pos (by simp), List.take_left, List.drop_left]

@[simp] theorem dec_16_cons (a b : Nat) (l : List Nat) :
    dec_16 (a :: b :: l) = .ok (256 * a + b, l) := by
  unfold dec_16
  rw [show a :: b :: l = [a, b] ++ l from rfl, readBytes_append 2 [a, b] l rfl]
  rfl

@[simp] theorem dec_32_cons (a b c d : Nat) (l : List Nat) :
    dec_32 (a :: b :: c :: d :: l) =
      .ok (256 * (256 * (256 * a + b) + c) + d, l) := by
  unfold dec_32
  rw [show a :: b :: c :: d :: l = [a, b, c, d] ++ l from rfl,
    readBytes_append 4 [a, b, c, d] l rfl]
  simp [List.foldl]

theorem dec_vl_lt (b : Nat) (h : b < 128) (l : List Nat) :
    dec_vl (b :: l) = .ok (b, l) := by
  show dec_vl_go (b % 128) b l = _
  rw [dec_vl_go.eq_def, if_pos (lt128_land b h), Nat.mod_eq_of_lt h]

-- Status-byte nibble arithmetic, decided over the bounded channel range.

theorem nib80 (c : Nat) (h : c < 16) :
    (0x80 + c) &&& 0xf0 = 0x80 ∧ (0x80 + c) &&& 0x0f = c := by
  revert c; decide

theorem nib90 (c : Nat) (h : c < 16) :
    (0x90 + c) &&& 0xf0 = 0x90 ∧ (0x90 + c) &&& 0x0f = c := by
  revert c; decide

theorem nibc0 (c : Nat) (h : c < 16) :
    (0xc0 + c) &&& 0xf0 = 0xc0 ∧ (0xc0 + c) &&& 0x0f = c := by
  revert c; decide

set_option maxRecDepth 4096 in
theorem midi_status_facts (s : Nat) (hs : s < 256)
    (h : s &&& 0xf0 = 0xa0 ∨ s &&& 0xf0 = 0xb0 ∨
      s &&& 0xf0 = 0xd0 ∨ s &&& 0xf0 = 0xe0) :
    0x80 ≤ s ∧ s ≤ 0xef ∧ s &&& 0xf0 ≠ 0xc0 ∧
      s &&& 0xf0 ≠ 0x80 ∧ s &&& 0xf0 ≠ 0x90 := by
  revert s; decide

/-- C5: for every nonnegative integer `n` (in particular every element of the
spec's sample set), decoding the variable-length encoding of `n` gives back
`n`, and the encoding of `0` is the single byte `0x00`. -/
theorem claim_C5_vlq_roundtrip :
    (∀ n rest, dec_vl (enc_vl n ++ rest) = .ok (n, rest)) ∧
      enc_vl 0 = [0x00] := by
  exact ⟨fun n rest => dec_vl_enc_vl n rest, rfl⟩


/-- C6: decoding a `0x90`-family event body with velocity `0` synthesizes a
note-off with velocity 64 and the same channel and note; nonzero velocity
gives a note-on carrying the read velocity. -/
theorem claim_C6_noteon_velocity (status note velocity : Nat) (rest : List Nat)
    (h : status &&& 0xf0 = 0x90) :
    dec_midi_event status (note :: velocity :: rest) =
      .ok ((if velocity = 0 then .note_off (status &&& 0x0f) note 64
            else .note_on (status &&& 0x0f) note velocity), rest) := by
  unfold dec_midi_event
  rw [h]
  norm_num
  by_cases hv : velocity = 0 <;> simp [hv]

/-- C6 witness: status `0x93`, note 60, on channel 3, at both a zero and a
nonzero velocity. -/
theorem claim_C6_witness :
    dec_midi_event 0x93 [60, 0, 7] = .ok (.note_off 3 60 64, [7]) ∧
      dec_midi_event 0x93 [60, 5, 7] = .ok (.note_on 3 60 5, [7]) := by
  constructor
  · have h := claim_C6_noteon_velocity 0x93 60 0 [7] (by decide)
    simpa using h
  · have h := claim_C6_noteon_velocity 0x93 60 5 [7] (by decide)
    simpa using h

/-- C7 counterexample: when the `0x2F` subtype byte is the last byte of the
chunk (no terminator byte follows at all), the decoder fails with
`UnexpectedEndOfData` — the read of the expected `0x00` runs off the end —
not with `MalformedEndOfTrack` as the claim states for every failure. -/
theorem claim_C7_counterexample :
    dec_meta_event [0x2f] = .error .unexpectedEndOfData ∧
      dec_meta_event [0x2f] ≠ .error .malformedEndOfTrack := by
  decide

/-- C7 amended: decoding a meta event with subtype `0x2F` yields the
end-of-track event when the subtype byte is immediately followed by a single
`0x00` that ends the containing chunk's content; it fails with
`MalformedEndOfTrack` when a byte follows but is nonzero or is not the final
byte; and it fails with `UnexpectedEndOfData` when no byte follows at all. -/
theorem claim_C7_end_of_track (l : List Nat) :
    dec_meta_event (0x2f :: l) =
      match l with
      | [] => .error .unexpectedEndOfData
      | b :: rest =>
        if b = 0x00 ∧ rest = [] then .ok (.end_track, [])
        else .error .malformedEndOfTrack := by
  cases l with
  | nil => decide
  | cons b rest =>
    unfold dec_meta_event
    simp only [read1_cons, ok_bind]
    rw [if_neg (by decide)]
    rw [if_pos (by trivial)]
    by_cases hb : b = 0
    · subst hb
      by_cases hr : rest = []
      · subst hr; simp
      · simp [hr]
    · simp [hb]

/-- C4: decoding `[delta1, 0x90, 60, 100, delta2, 62, 90]` (second event
with no status byte) yields two channel-0 note-ons with notes 60 then 62;
and in general, when the byte after the delta time is below `0x80`, the
decoder re-reads that byte as data and decodes a channel-voice event with
the current running status, failing with `RunningStatusUnset` when none is
set. -/
theorem claim_C4_running_status :
    (∀ d1 d2 : Nat, d1 < 128 → d2 < 128 →
      dec_events [d1, 0x90, 60, 100, d2, 62, 90] =
        .ok [⟨some (d1 : Int), none, .note_on 0 60 100⟩,
             ⟨some (d2 : Int), none, .note_on 0 62 90⟩]) ∧
    (∀ (l : List Nat) (d b : Nat) (rest : List Nat) (rs : Option Nat),
      dec_vl l = .ok (d, b :: rest) → b < 0x80 →
      dec_event l rs =
        match rs with
        | none => .error .runningStatusUnset
        | some s =>
          (dec_midi_event s (b :: rest)).map
            fun p => (⟨some (d : Int), none, p.1⟩, rs, p.2)) := by
  have hgen : ∀ (l : List Nat) (d b : Nat) (rest : List Nat) (rs : Option Nat),
      dec_vl l = .ok (d, b :: rest) → b < 0x80 →
      dec_event l rs =
        match rs with
        | none => .error .runningStatusUnset
        | some s =>
          (dec_midi_event s (b :: rest)).map
            fun p => (⟨some (d : Int), none, p.1⟩, rs, p.2) := by
    intro l d b rest rs hvl hb
    unfold dec_event
    rw [hvl]
    simp only [ok_bind, read1_cons]
    rw [if_neg (by omega), if_neg (by omega), if_neg (by omega), if_pos hb]
    cases rs with
    | none => rfl
    | some s =>
      show (dec_midi_event s (b :: rest) >>= _) = _
      cases hm : dec_midi_event s (b :: rest) with
      | ok p => simp [hm, Except.map]
      | error e => simp [hm, Except.map]
  refine ⟨?_, hgen⟩
  intro d1 d2 h1 h2
  have e1 : dec_event [d1, 0x90, 60, 100, d2, 62, 90] none =
      .ok (⟨some (d1 : Int), none, .note_on 0 60 100⟩, some 0x90, [d2, 62, 90]) := by
    unfold dec_event
    rw [dec_vl_lt d1 h1]
    simp only [ok_bind, read1_cons]
    rw [if_neg (by decide), if_neg (by decide), if_pos (by decide)]
    rfl
  have e2 : dec_event [d2, 62, 90] (some 0x90) =
      .ok (⟨some (d2 : Int), none, .note_on 0 62 90⟩, some 0x90, []) := by
    rw [hgen [d2, 62, 90] d2 62 [90] (some 0x90) (dec_vl_lt d2 h2 _) (by norm_num)]
    rfl
  show dec_events_go 7 none _ = _
  rw [show (7 : Nat) = 6 + 1 from rfl]
  show (dec_event [d1, 0x90, 60, 100, d2, 62, 90] none >>= _) = _
  rw [e1]
  simp only [ok_bind]
  show (dec_events_go 6 (some 0x90) [d2, 62, 90] >>= _) = _
  rw [show (6 : Nat) = 5 + 1 from rfl]
  show ((dec_event [d2, 62, 90] (some 0x90) >>= _ : Except Err (List Event)) >>= _) = _
  rw [e2]
  rfl

/-- C4 witness: the running-status byte string with concrete deltas 0 and 1,
and the general rule applied with status `0x90` set and with it unset. -/
theorem claim_C4_witness :
    dec_events [0, 0x90, 60, 100, 1, 62, 90] =
        .ok [⟨some 0, none, .note_on 0 60 100⟩,
             ⟨some 1, none, .note_on 0 62 90⟩] ∧
      dec_event [1, 62, 90] (some 0x90) =
        .ok (⟨some 1, none, .note_on 0 62 90⟩, some 0x90, []) ∧
      dec_event [1, 62, 90] none = .error .runningStatusUnset := by
  refine ⟨claim_C4_running_status.1 0 1 (by decide) (by decide), ?_, ?_⟩
  · have h := claim_C4_running_status.2 [1, 62, 90] 1 62 [90] (some 0x90)
      (by decide) (by decide)
    simpa using h
  · have h := claim_C4_running_status.2 [1, 62, 90] 1 62 [90] none
      (by decide) (by decide)
    simpa using h

-- Decoding the canonical encoding of one channel-voice body, per status
-- family.

theorem dec_midi_90 (c note v : Nat) (hc : c < 16) (l : List Nat) :
    dec_midi_event (0x90 + c) (note :: v :: l) =
      .ok ((if v = 0 then .note_off c note 64 else .note_on c note v), l) := by
  unfold dec_midi_event
  rw [(nib90 c hc).1, (nib90 c hc).2]
  norm_num
  by_cases hv : v = 0 <;> simp [hv]

theorem dec_midi_80 (c note v : Nat) (hc : c < 16) (l : List Nat) :
    dec_midi_event (0x80 + c) (note :: v :: l) = .ok (.note_off c note v, l) := by
  unfold dec_midi_event
  rw [(nib80 c hc).1, (nib80 c hc).2]
  norm_num

theorem dec_midi_c0 (c inst : Nat) (hc : c < 16) (l : List Nat) :
    dec_midi_event (0xc0 + c) (inst :: l) = .ok (.setinst c inst, l) := by
  unfold dec_midi_event
  rw [(nibc0 c hc).1, (nibc0 c hc).2]
  norm_num

theorem dec_midi_raw (s : Nat) (data l : List Nat)
    (hn : s &&& 0xf0 ≠ 0xc0 ∧ s &&& 0xf0 ≠ 0x80 ∧ s &&& 0xf0 ≠ 0x90)
    (hlen : data.length = READLEN_TABLE (s &&& 0xf0)) :
    dec_midi_event s (data ++ l) = .ok (.midi_code (s &&& 0x0f) s data, l) := by
  unfold dec_midi_event
  rw [if_neg hn.1, if_neg hn.2.1, if_neg hn.2.2,
    readBytes_append _ _ _ hlen]
  rfl

-- Decoding one event whose delta time and body bytes sit at the head of the
-- stream, by the kind of its leading status byte.

theorem dec_event_explicit (d status : Nat) (tail : List Nat) (rs : Option Nat)
    (h1 : 0x80 ≤ status) (h2 : status ≤ 0xef) :
    dec_event (enc_vl d ++ status :: tail) rs =
      (dec_midi_event status tail).map
        fun p => (⟨some (d : Int), none, p.1⟩, some status, p.2) := by
  unfold dec_event
  rw [dec_vl_enc_vl]
  simp only [ok_bind, read1_cons]
  rw [if_neg (by omega), if_neg (by omega), if_pos (by omega)]
  cases hm : dec_midi_event status tail with
  | ok p => simp [hm, Except.map]
  | error e => simp [hm, Except.map]

theorem dec_event_meta (d : Nat) (tail : List Nat) (rs : Option Nat) :
    dec_event (enc_vl d ++ 0xff :: tail) rs =
      (dec_meta_event tail).map
        fun p => (⟨some (d : Int), none, p.1⟩, rs, p.2) := by
  unfold dec_event
  rw [dec_vl_enc_vl]
  simp only [ok_bind, read1_cons]
  rw [if_neg (by omega)]
  rw [if_pos (by trivial)]
  cases hm : dec_meta_event tail with
  | ok p => simp [hm, Except.map]
  | error e => simp [hm, Except.map]

theorem dec_event_system (d status : Nat) (data rest : List Nat)
    (rs : Option Nat) (h1 : 0xf0 ≤ status) (h2 : status ≤ 0xf7) :
    dec_event (enc_vl d ++ status :: (enc_vl data.length ++ (data ++ rest))) rs =
      .ok (⟨some (d : Int), none, .system status data⟩, none, rest) := by
  unfold dec_event
  rw [dec_vl_enc_vl]
  simp only [ok_bind, read1_cons]
  rw [if_pos (by omega), dec_vl_enc_vl]
  simp only [ok_bind]
  rw [readBytes_append _ _ _ rfl]
  rfl

theorem enc_vl_go_shape (fuel : Nat) :
    ∀ q acc, ∃ pre, enc_vl_go fuel q acc = pre ++ acc := by
  induction fuel with
  | zero => exact fun q acc => ⟨[], rfl⟩
  | succ fuel ih =>
    intro q acc
    by_cases hq : q = 0
    · exact ⟨[], by simp [enc_vl_go, hq]⟩
    · obtain ⟨pre, hp⟩ := ih (q / 128) ((128 ||| q % 128) :: acc)
      refine ⟨pre ++ [128 ||| q % 128], ?_⟩
      rw [enc_vl_go, if_neg hq, hp]
      simp

theorem enc_vl_ne_nil (x : Nat) : enc_vl x ≠ [] := by
  obtain ⟨pre, hp⟩ := enc_vl_go_shape x (x / 128) [x % 128]
  rw [enc_vl, hp]
  simp

/-- Decoding the canonical encoding of a valid event consumes exactly that
encoding, returns the event unchanged, and moves the running-status cell per
the state machine (an end-of-track event must close its chunk). -/
theorem dec_event_enc (e : Event) (rs : Option Nat) (bs rest : List Nat)
    (hv : validEvent e = true)
    (henc : enc_event e = .ok bs)
    (het : e.body = .end_track → rest = []) :
    dec_event (bs ++ rest) rs = .ok (e, nextRS e.body rs, rest) := by
  obtain ⟨dt, t, body⟩ := e
  cases dt with
  | none => simp [validEvent] at hv
  | some d =>
  cases t with
  | some t0 => simp [validEvent] at hv
  | none =>
  simp only [validEvent, Option.isNone_none, Bool.and_true, Bool.and_eq_true,
    decide_eq_true_eq] at hv
  obtain ⟨hd, hb⟩ := hv
  have hdt : ((d.toNat : Int)) = d := Int.toNat_of_nonneg hd
  cases body with
  | note_on c n v =>
    simp only [validBody, Bool.and_eq_true, decide_eq_true_eq] at hb
    obtain ⟨⟨⟨hc, hn⟩, hv1⟩, hv2⟩ := hb
    simp only [enc_event, pure_eq_ok, Except.ok.injEq] at henc
    subst henc
    simp only [List.append_assoc, List.cons_append, List.nil_append]
    rw [dec_event_explicit d.toNat (0x90 + c) _ rs (by omega) (by omega),
      dec_midi_90 c n v hc, if_neg (by omega)]
    simp [Except.map, nextRS, hdt]
  | note_off c n v =>
    simp only [validBody, Bool.and_eq_true, decide_eq_true_eq] at hb
    obtain ⟨⟨hc, hn⟩, hvel⟩ := hb
    simp only [enc_event, pure_eq_ok, Except.ok.injEq] at henc
    subst henc
    simp only [List.append_assoc, List.cons_append, List.nil_append]
    rw [dec_event_explicit d.toNat (0x80 + c) _ rs (by omega) (by omega),
      dec_midi_80 c n v hc]
    simp [Except.map, nextRS, hdt]
  | setinst c i =>
    simp only [validBody, Bool.and_eq_true, decide_eq_true_eq] at hb
    obtain ⟨hc, hi⟩ := hb
    simp only [enc_event, pure_eq_ok, Except.ok.injEq] at henc
    subst henc
    simp only [List.append_assoc, List.cons_append, List.nil_append]
    rw [dec_event_explicit d.toNat (0xc0 + c) _ rs (by omega) (by omega),
      dec_midi_c0 c i hc]
    simp [Except.map, nextRS, hdt]
  | midi_code c s data =>
    simp only [validBody, Bool.and_eq_true, Bool.or_eq_true,
      decide_eq_true_eq] at hb
    obtain ⟨⟨⟨⟨ha, hs256⟩, hchan⟩, hlen⟩, hbytes⟩ := hb
    have hfacts := midi_status_facts s hs256 (by tauto)
    simp only [enc_event, pure_eq_ok, Except.ok.injEq] at henc
    subst henc
    simp only [List.append_assoc, List.cons_append]
    rw [dec_event_explicit d.toNat s _ rs hfacts.1 hfacts.2.1,
      dec_midi_raw s data rest
        ⟨hfacts.2.2.1, hfacts.2.2.2.1, hfacts.2.2.2.2⟩ hlen]
    simp [Except.map, nextRS, hdt, hchan]
  | system s data =>
    simp only [validBody, Bool.and_eq_true, decide_eq_true_eq] at hb
    obtain ⟨⟨h1, h2⟩, hbytes⟩ := hb
    simp only [enc_event, pure_eq_ok, Except.ok.injEq] at henc
    subst henc
    simp only [List.append_assoc, List.cons_append]
    rw [dec_event_system d.toNat s data rest rs h1 h2]
    simp [nextRS, hdt]
  | meta_text code txt =>
    simp only [validBody, Bool.and_eq_true, decide_eq_true_eq] at hb
    obtain ⟨⟨h1, h2⟩, hbytes⟩ := hb
    simp only [enc_event, pure_eq_ok, Except.ok.injEq] at henc
    subst henc
    simp only [List.append_assoc, List.cons_append, List.nil_append]
    rw [dec_event_meta]
    unfold dec_meta_event
    simp only [read1_cons, ok_bind]
    rw [if_pos ⟨h1, h2⟩, dec_vl_enc_vl]
    simp only [ok_bind]
    rw [readBytes_append _ _ _ rfl]
    simp [Except.map, nextRS, hdt]
  | end_track =>
    have hr : rest = [] := het rfl
    subst hr
    simp only [enc_event, pure_eq_ok, Except.ok.injEq] at henc
    subst henc
    simp only [List.append_assoc, List.cons_append, List.nil_append,
      List.append_nil]
    rw [dec_event_meta]
    have hm : dec_meta_event [0x2f, 0x00] = .ok (.end_track, []) := rfl
    rw [hm]
    simp [Except.map, nextRS, hdt]
  | tempo tp =>
    simp only [enc_event, pure_eq_ok, Except.ok.injEq] at henc
    subst henc
    simp only [enc_16, List.append_assoc, List.cons_append, List.nil_append]
    rw [dec_event_meta]
    unfold dec_meta_event
    simp only [read1_cons, ok_bind]
    rw [if_neg (by decide)]
    rw [if_neg (by decide)]
    rw [if_pos (by trivial)]
    rw [if_pos (by trivial)]
    simp only [dec_16_cons, ok_bind, read1_cons]
    have hval : 256 * (256 * (tp / 256 / 256) + tp / 256 % 256) + tp % 256 = tp := by
      omega
    rw [hval]
    simp [Except.map, nextRS, hdt]
  | meta_code code data =>
    simp only [validBody, Bool.and_eq_true, Bool.not_eq_true',
      Bool.and_eq_false_iff, decide_eq_true_eq, decide_eq_false_iff_not] at hb
    obtain ⟨⟨⟨⟨h256, hrange⟩, h2f⟩, h51⟩, hbytes⟩ := hb
    simp only [enc_event, pure_eq_ok, Except.ok.injEq] at henc
    subst henc
    simp only [List.append_assoc, List.cons_append, List.nil_append]
    rw [dec_event_meta]
    unfold dec_meta_event
    simp only [read1_cons, ok_bind]
    have hnr : ¬(0x01 ≤ code ∧ code ≤ 0x0f) := by
      rcases hrange with h | h <;> omega
    rw [if_neg hnr, if_neg h2f, if_neg h51, dec_vl_enc_vl]
    simp only [ok_bind]
    rw [readBytes_append _ _ _ rfl]
    simp [Except.map, nextRS, hdt]

theorem enc_event_ne_nil (e : Event) (bs : List Nat)
    (henc : enc_event e = .ok bs) : bs ≠ [] := by
  obtain ⟨dt, t, body⟩ := e
  cases dt with
  | none => simp [enc_event] at henc
  | some d =>
    cases body <;>
      (simp only [enc_event, pure_eq_ok, Except.ok.injEq] at henc; subst henc;
        simp [enc_vl_ne_nil])

theorem enc_event_total (e : Event) (d : Int) (hdt : e.dt = some d) :
    ∃ bs, enc_event e = .ok bs := by
  obtain ⟨dt, t, body⟩ := e
  cases hdt
  cases body <;> exact ⟨_, rfl⟩

theorem dec_events_go_nil (fuel : Nat) (rs : Option Nat) :
    dec_events_go fuel rs [] = .ok [] := by
  cases fuel <;> rfl

/-- Decoding the concatenated canonical encodings of a valid track's events
recovers exactly those events, from any incoming running-status state, given
enough fuel (the byte count suffices). -/
theorem dec_events_go_enc (evs : List Event) :
    ∀ (rs : Option Nat) (bs : List Nat) (fuel : Nat),
      enc_events evs = .ok bs → validEvents evs = true →
      bs.length ≤ fuel → dec_events_go fuel rs bs = .ok evs := by
  induction evs with
  | nil =>
    intro rs bs fuel henc _ _
    simp only [enc_events, Except.ok.injEq] at henc
    subst henc
    exact dec_events_go_nil fuel rs
  | cons e es ih =>
    intro rs bs fuel henc hval hfuel
    rcases hbe : enc_event e with eb | b
    · rw [enc_events, hbe] at henc; simp at henc
    rcases hbs : enc_events es with eb | bs'
    · rw [enc_events, hbe, hbs] at henc; simp at henc
    rw [enc_events, hbe, hbs] at henc
    simp only [ok_bind, pure_eq_ok, Except.ok.injEq] at henc
    subst henc
    simp only [validEvents, Bool.and_eq_true, Bool.or_eq_true,
      Bool.not_eq_true', List.isEmpty_iff, decide_eq_false_iff_not] at hval
    obtain ⟨⟨hve, hor⟩, hves⟩ := hval
    have het : e.body = .end_track → bs' = [] := by
      intro hbody
      rcases hor with h | h
      · exact absurd hbody h
      · subst h
        simp only [enc_events, Except.ok.injEq] at hbs
        exact hbs.symm
    have hstep := dec_event_enc e rs b bs' hve hbe het
    rcases hbne : b with _ | ⟨hb, tb⟩
    · exact absurd hbne (enc_event_ne_nil e b hbe)
    subst hbne
    rcases fuel with _ | fuel
    · simp at hfuel
    show dec_events_go (fuel + 1) rs (hb :: (tb ++ bs')) = _
    show (dec_event (hb :: (tb ++ bs')) rs >>= _) = _
    rw [show hb :: (tb ++ bs') = (hb :: tb) ++ bs' from rfl, hstep]
    simp only [ok_bind]
    rw [ih (nextRS e.body rs) bs' fuel hbs hves (by simp at hfuel; omega)]
    rfl

/-- Track-content round-trip: `dec_events` of a valid track's encoding. -/
theorem dec_events_enc (evs : List Event) (bs : List Nat)
    (henc : enc_events evs = .ok bs) (hval : validEvents evs = true) :
    dec_events bs = .ok evs :=
  dec_events_go_enc evs none bs bs.length henc hval le_rfl

theorem validEvents_of_no_end_track (evs : List Event)
    (hval : ∀ e ∈ evs, validEvent e = true)
    (hnoet : ∀ e ∈ evs, e.body ≠ .end_track) :
    validEvents evs = true := by
  induction evs with
  | nil => rfl
  | cons e es ih =>
    simp only [validEvents, Bool.and_eq_true, Bool.or_eq_true,
      Bool.not_eq_true', decide_eq_false_iff_not]
    refine ⟨⟨hval e (by simp), Or.inl (hnoet e (by simp))⟩, ?_⟩
    exact ih (fun x hx => hval x (by simp [hx])) fun x hx => hnoet x (by simp [hx])

/-- C10: a track chunk whose content is a well-formed concatenation of
encoded events with no end-of-track event anywhere decodes successfully to
exactly those events — the decoder stops at content exhaustion and never
demands a final end-of-track marker. -/
theorem claim_C10_no_terminator_required (evs : List Event) (bs : List Nat)
    (hval : ∀ e ∈ evs, validEvent e = true)
    (hnoet : ∀ e ∈ evs, e.body ≠ .end_track)
    (henc : enc_events evs = .ok bs) :
    dec_events bs = .ok evs :=
  dec_events_enc evs bs henc (validEvents_of_no_end_track evs hval hnoet)

/-- C10 witness: a one-event track content with no end-of-track marker. -/
theorem claim_C10_witness :
    dec_events [0, 0x90, 60, 100] = .ok [⟨some 0, none, .note_on 0 60 100⟩] :=
  claim_C10_no_terminator_required [⟨some 0, none, .note_on 0 60 100⟩]
    [0, 0x90, 60, 100] (by decide) (by decide) (by decide)

theorem dec_32_enc_32 (x : Nat) (hx : x < 4294967296) (rest : List Nat) :
    dec_32 (enc_32 x ++ rest) = .ok (x, rest) := by
  simp only [enc_32, List.cons_append, List.nil_append, dec_32_cons]
  have h : 256 * (256 * (256 * (x / 16777216 % 256) + x / 65536 % 256) +
      x / 256 % 256) + x % 256 = x := by omega
  rw [h]

theorem and_0x8000_eq_zero (x : Nat) (h : x < 32768) : x &&& 0x8000 = 0 := by
  have h1 : x &&& 0x8000 = x &&& 2 ^ 15 := by norm_num
  rw [h1, Nat.and_two_pow]
  have h2 : x.testBit 15 = false := Nat.testBit_lt_two_pow (by omega)
  simp [h2]

theorem and_0x7fff_eq_self (x : Nat) (h : x < 32768) : x &&& 0x7fff = x := by
  have h1 := Nat.and_pow_two_sub_one_eq_mod x 15
  norm_num at h1
  omega

theorem get_ticks_per_beat_small (tpb : Nat) (h : tpb < 0x8000) :
    get_ticks_per_beat tpb = .ok tpb := by
  unfold get_ticks_per_beat
  rw [if_neg (by simp [and_0x8000_eq_zero tpb h]), and_0x7fff_eq_self tpb h]

theorem dec_16_enc_16 (x : Nat) (rest : List Nat) :
    dec_16 (enc_16 x ++ rest) = .ok (x, rest) := by
  simp only [enc_16, List.cons_append, List.nil_append, dec_16_cons]
  have h : 256 * (x / 256) + x % 256 = x := by omega
  rw [h]

theorem dec_chunk_header (f n tpb : Nat) (rest : List Nat)
    (htpb : tpb < 0x8000) :
    dec_chunk (header_chunk f n tpb ++ rest) = .ok (.header f n tpb, rest) := by
  unfold dec_chunk header_chunk
  simp only [List.append_assoc]
  rw [readBytes_append 4 TAG_HEADER _ rfl]
  simp only [ok_bind]
  rw [dec_32_enc_32 _ (by simp [enc_16]) _]
  simp only [ok_bind]
  rw [show enc_16 f ++ (enc_16 n ++ (enc_16 tpb ++ rest)) =
    (enc_16 f ++ (enc_16 n ++ enc_16 tpb)) ++ rest by simp]
  rw [readBytes_append _ _ _ rfl]
  simp only [ok_bind]
  rw [if_pos (by trivial)]
  rw [dec_16_enc_16]
  simp only [ok_bind]
  rw [dec_16_enc_16]
  simp only [ok_bind]
  rw [show enc_16 tpb = enc_16 tpb ++ [] by simp, dec_16_enc_16]
  simp only [ok_bind]
  rw [get_ticks_per_beat_small tpb htpb]
  rfl

theorem dec_chunk_track (evs : List Event) (content rest : List Nat)
    (henc : enc_events evs = .ok content) (hval : validEvents evs = true)
    (hlen : content.length < 4294967296) :
    dec_chunk ((TAG_TRACK ++ enc_32 content.length ++ content) ++ rest) =
      .ok (.track evs, rest) := by
  unfold dec_chunk
  simp only [List.append_assoc]
  rw [readBytes_append 4 TAG_TRACK _ rfl]
  simp only [ok_bind]
  rw [dec_32_enc_32 _ hlen]
  simp only [ok_bind]
  rw [readBytes_append _ content rest rfl]
  simp only [ok_bind]
  rw [if_neg (by decide)]
  rw [if_pos (by trivial)]
  rw [dec_events_enc evs content henc hval]
  rfl

theorem dec_chunks_go_nil (fuel : Nat) : dec_chunks_go fuel [] = .ok [] := by
  cases fuel <;> rfl

theorem dec_chunks_go_step (fuel : Nat) (c cs : List Nat) (hc : c ≠ []) :
    dec_chunks_go (fuel + 1) (c ++ cs) =
      (do
        let (ch, l') ← dec_chunk (c ++ cs)
        let chs ← dec_chunks_go fuel l'
        pure (ch :: chs)) := by
  rcases c with _ | ⟨b, tl⟩
  · exact absurd rfl hc
  · rfl

theorem validEvents_mem (evs : List Event) (h : validEvents evs = true) :
    ∀ e ∈ evs, validEvent e = true := by
  induction evs with
  | nil => intro e he; simp at he
  | cons e es ih =>
    simp only [validEvents, Bool.and_eq_true] at h
    intro x hx
    rcases List.mem_cons.mp hx with rfl | hx
    · exact h.1.1
    · exact ih h.2 x hx

theorem validEvent_dt (e : Event) (h : validEvent e = true) :
    ∃ d, e.dt = some d := by
  cases hd : e.dt with
  | none => rw [validEvent, hd] at h; simp at h
  | some d => exact ⟨d, rfl⟩

theorem enc_events_total (evs : List Event)
    (h : ∀ e ∈ evs, validEvent e = true) : ∃ bs, enc_events evs = .ok bs := by
  induction evs with
  | nil => exact ⟨[], rfl⟩
  | cons e es ih =>
    obtain ⟨d, hd⟩ := validEvent_dt e (h e (by simp))
    obtain ⟨b, hb⟩ := enc_event_total e d hd
    obtain ⟨bs, hbs⟩ := ih fun x hx => h x (by simp [hx])
    exact ⟨b ++ bs, by rw [enc_events, hb, hbs]; rfl⟩

theorem enc_tracks_total (tracks : List (List Event))
    (h : ∀ tr ∈ tracks, validEvents tr = true) :
    ∃ bs, enc_tracks tracks = .ok bs := by
  induction tracks with
  | nil => exact ⟨[], rfl⟩
  | cons tr trs ih =>
    obtain ⟨content, hcontent⟩ :=
      enc_events_total tr (validEvents_mem tr (h tr (by simp)))
    obtain ⟨bs, hbs⟩ := ih fun x hx => h x (by simp [hx])
    refine ⟨(TAG_TRACK ++ enc_32 content.length ++ content) ++ bs, ?_⟩
    rw [enc_tracks, track_chunk, hcontent, hbs]
    rfl

/-- Decoding the concatenated track chunks of valid tracks yields exactly
one track chunk per track, given enough fuel. -/
theorem dec_chunks_go_tracks (tracks : List (List Event)) :
    ∀ (bs : List Nat) (fuel : Nat), enc_tracks tracks = .ok bs →
      (∀ tr ∈ tracks, validEvents tr = true ∧
        ∀ c, enc_events tr = .ok c → c.length < 4294967296) →
      bs.length ≤ fuel →
      dec_chunks_go fuel bs = .ok (tracks.map Chunk.track) := by
  induction tracks with
  | nil =>
    intro bs fuel henc _ _
    simp only [enc_tracks, Except.ok.injEq] at henc
    subst henc
    exact dec_chunks_go_nil fuel
  | cons tr trs ih =>
    intro bs fuel henc hv hfuel
    rcases hc : track_chunk tr with e | c
    · rw [enc_tracks, hc] at henc; simp at henc
    rcases hcs : enc_tracks trs with e | cs
    · rw [enc_tracks, hc, hcs] at henc; simp at henc
    rw [enc_tracks, hc, hcs] at henc
    simp only [ok_bind, pure_eq_ok, Except.ok.injEq] at henc
    subst henc
    rcases hec : enc_events tr with e | content
    · rw [track_chunk, hec] at hc; simp at hc
    rw [track_chunk, hec] at hc
    simp only [ok_bind, pure_eq_ok, Except.ok.injEq] at hc
    subst hc
    obtain ⟨hvtr, hlen⟩ := hv tr (by simp)
    have hcne : TAG_TRACK ++ enc_32 content.length ++ content ≠ [] := by
      simp [TAG_TRACK]
    rcases fuel with _ | fuel
    · simp [TAG_TRACK] at hfuel
    rw [dec_chunks_go_step fuel _ cs hcne,
      dec_chunk_track tr content cs hec hvtr (hlen content hec)]
    simp only [ok_bind]
    rw [ih cs fuel hcs (fun x hx => hv x (by simp [hx]))
      (by simp [TAG_TRACK, enc_32] at hfuel ⊢; omega)]
    rfl

theorem filterMap_track (tracks : List (List Event)) :
    (tracks.map Chunk.track).filterMap track_events_of_chunk = tracks := by
  induction tracks with
  | nil => rfl
  | cons tr trs ih => simp [track_events_of_chunk, ih]

/-- C1: a syntactically valid `MidiFile` value (fields in range per the data
model, valid events, end-of-track only as a final event, representable chunk
lengths) encodes successfully, and decoding the encoding returns a
structurally equal file: same format, same ticks-per-beat, same ordered
tracks of ordered events. -/
theorem claim_C1_decode_encode (m : MidiFile) (hval : validMidi m = true) :
    ∃ bs, encode_midi m = .ok bs ∧ decode_midi bs = .ok m := by
  obtain ⟨f, tpb, tracks⟩ := m
  simp only [validMidi, Bool.and_eq_true, decide_eq_true_eq,
    List.all_eq_true] at hval
  obtain ⟨⟨⟨hf, hn⟩, htpb⟩, htr⟩ := hval
  have htr' : ∀ tr ∈ tracks, validEvents tr = true ∧
      ∀ c, enc_events tr = .ok c → c.length < 4294967296 := by
    intro tr hmem
    have h := htr tr hmem
    simp only [Bool.and_eq_true] at h
    refine ⟨h.1, ?_⟩
    intro c hc
    have h2 := h.2
    rw [hc] at h2
    simpa using h2
  obtain ⟨tb, htb⟩ := enc_tracks_total tracks fun tr h => (htr' tr h).1
  refine ⟨header_chunk f tracks.length tpb ++ tb, ?_, ?_⟩
  · show (enc_tracks tracks >>= _) = _
    rw [htb]
    rfl
  · have hhne : header_chunk f tracks.length tpb ≠ [] := by
      simp [header_chunk, TAG_HEADER]
    have hchunks : dec_chunks (header_chunk f tracks.length tpb ++ tb) =
        .ok (.header f tracks.length tpb :: tracks.map Chunk.track) := by
      unfold dec_chunks
      rcases hfuel : (header_chunk f tracks.length tpb ++ tb).length
        with _ | fl
      · simp [header_chunk, TAG_HEADER] at hfuel
      rw [dec_chunks_go_step fl _ tb hhne,
        dec_chunk_header f tracks.length tpb tb htpb]
      simp only [ok_bind]
      rw [dec_chunks_go_tracks tracks tb fl htb htr'
        (by simp [header_chunk, enc_16, enc_32, TAG_HEADER] at hfuel; omega)]
      rfl
    show (dec_chunks _ >>= _) = _
    rw [hchunks]
    simp only [ok_bind]
    show (if tracks.length = (List.filterMap track_events_of_chunk
        (Chunk.header f tracks.length tpb :: tracks.map Chunk.track)).length
      then _ else _) = _
    rw [show List.filterMap track_events_of_chunk
        (Chunk.header f tracks.length tpb :: tracks.map Chunk.track) =
        tracks from by
      rw [List.filterMap_cons_none (by rfl), filterMap_track]]
    rw [if_pos rfl]
    rfl

/-- C1 witness: the minimal example file is valid, and its encoding decodes
back to it. -/
theorem claim_C1_witness :
    validMidi exampleFile = true ∧
      ∃ bs, encode_midi exampleFile = .ok bs ∧
        decode_midi bs = .ok exampleFile :=
  ⟨by decide, claim_C1_decode_encode exampleFile (by decide)⟩

/-- C2: on the spec's example file (`ticks_per_beat` 480, initial tempo
500000, change to 250000 at tick 480, note at tick 960) the converter puts
the tempo-change event at 500000 µs and the note at 750000 µs; and in
general the sweep stamps each event with
`lastChangeMicros + fdiv ((tick - lastChangeTick) * tempo) ticksPerBeat`
and moves the carried tempo state only after stamping a tempo event with
the old state. -/
theorem claim_C2_tempo_sweep :
    ((convert_to_absolute_time tempoSweepFile).tracks =
      [[⟨none, some 0, .tempo 500000⟩,
        ⟨none, some 500000, .tempo 250000⟩,
        ⟨none, some 750000, .note_on 0 60 100⟩]]) ∧
    (∀ (tpb tempo : Nat) (t_tc_ticks t_tc_us : Int) (te : TaggedEvent)
      (rest : List TaggedEvent),
      time_sweep tpb tempo t_tc_ticks t_tc_us (te :: rest) =
        (te.1, { te.2 with t := some (t_tc_us +
            ((te.2.t.getD 0 - t_tc_ticks) * (tempo : Int)).fdiv (tpb : Int)) }) ::
          (match te.2.body with
           | .tempo newTempo =>
             time_sweep tpb newTempo (te.2.t.getD 0)
               (t_tc_us +
                 ((te.2.t.getD 0 - t_tc_ticks) * (tempo : Int)).fdiv (tpb : Int))
               rest
           | _ => time_sweep tpb tempo t_tc_ticks t_tc_us rest)) := by
  constructor
  · decide
  · intro tpb tempo t_tc_ticks t_tc_us te rest
    obtain ⟨tag, dt, t, body⟩ := te
    cases body <;> rfl

-- Mode lemmas: which time key each converter stage leaves on an event.

theorem mem_abs_ticks_go (l : List Event) :
    ∀ (t : Int) (e : Event), e ∈ convert_to_absolute_ticks_go t l →
      e.dt = none ∧ e.t.isSome := by
  induction l with
  | nil => intro t e he; simp [convert_to_absolute_ticks_go] at he
  | cons x xs ih =>
    intro t e he
    rw [convert_to_absolute_ticks_go] at he
    rcases List.mem_cons.mp he with rfl | he
    · exact ⟨rfl, rfl⟩
    · exact ih _ e he

theorem mem_time_sweep (l : List TaggedEvent) :
    ∀ (tpb tempo : Nat) (tct tcus : Int) (te : TaggedEvent),
      te ∈ time_sweep tpb tempo tct tcus l →
      ∃ te0 ∈ l, te.1 = te0.1 ∧ te.2.body = te0.2.body ∧
        te.2.dt = te0.2.dt ∧ te.2.t.isSome := by
  induction l with
  | nil => intro tpb tempo tct tcus te hte; simp [time_sweep] at hte
  | cons x xs ih =>
    intro tpb tempo tct tcus te hte
    rw [time_sweep] at hte
    rcases hb : x.2.body with b1 | b2 | b3 | b4 | b5 | b6 | b7 | tp | b9 <;>
      rw [hb] at hte <;>
      rcases List.mem_cons.mp hte with rfl | hte <;>
        first
          | exact ⟨x, by simp, rfl, by simp [hb], rfl, rfl⟩
          | (obtain ⟨te0, h0, h1, h2, h3, h4⟩ := ih _ _ _ _ te hte;
             exact ⟨te0, by simp [h0], h1, h2, h3, h4⟩)

theorem sort_insert_perm (x : TaggedEvent) (l : List TaggedEvent) :
    (sort_insert x l).Perm (x :: l) := by
  induction l with
  | nil => rfl
  | cons y ys ih =>
    rw [sort_insert]
    by_cases h : sort_key y < sort_key x
    · rw [if_pos h]
      exact (ih.cons y).trans (List.Perm.swap x y ys)
    · rw [if_neg h]

theorem sort_by_t_perm (l : List TaggedEvent) : (sort_by_t l).Perm l := by
  induction l with
  | nil => rfl
  | cons x xs ih =>
    exact (sort_insert_perm x (sort_by_t xs)).trans (ih.cons x)

theorem mem_tag_tracks (tracks : List (List Event)) (te : TaggedEvent)
    (h : te ∈ tag_tracks tracks) : ∃ tr ∈ tracks, te.2 ∈ tr := by
  unfold tag_tracks at h
  rw [List.mem_flatten] at h
  obtain ⟨L, hL, hte⟩ := h
  rw [List.mem_map] at hL
  obtain ⟨⟨i, tr⟩, hp, rfl⟩ := hL
  rw [List.mem_map] at hte
  obtain ⟨⟨j, e⟩, hq, rfl⟩ := hte
  have h1 : tracks.get? i = some tr := List.mk_mem_enum_iff_get?.mp hp
  have h2 : tr.get? j = some e := List.mk_mem_enum_iff_get?.mp hq
  exact ⟨tr, List.get?_mem h1, List.get?_mem h2⟩

theorem mem_convert_abs (m : MidiFile) (tr : List Event)
    (htr : tr ∈ (convert_to_absolute_time m).tracks) (e : Event)
    (he : e ∈ tr) : e.dt = none ∧ e.t.isSome := by
  simp only [convert_to_absolute_time] at htr
  rw [List.mem_map] at htr
  obtain ⟨⟨i, tr1⟩, hp, rfl⟩ := htr
  rw [List.mem_map] at he
  obtain ⟨⟨j, e1⟩, hq, rfl⟩ := he
  have htr1 : tr1 ∈ m.tracks.map convert_to_absolute_ticks :=
    List.get?_mem (List.mk_mem_enum_iff_get?.mp hp)
  rw [List.mem_map] at htr1
  obtain ⟨tr0, htr0, rfl⟩ := htr1
  have he1 : e1 ∈ convert_to_absolute_ticks tr0 :=
    List.get?_mem (List.mk_mem_enum_iff_get?.mp hq)
  cases hf : (abs_time_swept m).find? fun te => decide (te.1 = (i, j)) with
  | none =>
    simp only [hf, Option.map_none, Option.getD_none]
    exact mem_abs_ticks_go tr0 0 e1 he1
  | some te =>
    simp only [hf, Option.map_some, Option.getD_some]
    have hmem := List.mem_of_find?_eq_some hf
    simp only [abs_time_swept] at hmem
    obtain ⟨te0, h0, _, _, hdt, ht⟩ :=
      mem_time_sweep _ _ _ _ _ te hmem
    have h0' : te0 ∈ tag_tracks (m.tracks.map convert_to_absolute_ticks) :=
      (sort_by_t_perm _).mem_iff.mp h0
    obtain ⟨tr2, htr2, hte0⟩ := mem_tag_tracks _ te0 h0'
    rw [List.mem_map] at htr2
    obtain ⟨tr3, _, rfl⟩ := htr2
    have := mem_abs_ticks_go tr3 0 te0.2 hte0
    exact ⟨hdt.trans this.1, ht⟩

theorem mem_rel_track (l : List Event) :
    ∀ (tpb tempo : Nat) (t0 : Int) (e : Event),
      e ∈ rel_track tpb tempo t0 l → e.dt.isSome ∧ e.t = none := by
  induction l with
  | nil => intro tpb tempo t0 e he; simp [rel_track] at he
  | cons x xs ih =>
    intro tpb tempo t0 e he
    rw [rel_track] at he
    rcases List.mem_cons.mp he with rfl | he
    · exact ⟨rfl, rfl⟩
    · exact ih _ _ _ e he

/-- C8: `convert_to_absolute_time` leaves every event of a tick-mode file
with the absolute time key and no delta key, and `convert_to_relative_time`
leaves every event of an absolute-mode file (the synthesized tempo event
included) with the delta key and no absolute key — no event of either
result carries both keys. -/
theorem claim_C8_mutual_exclusion :
    (∀ m : MidiFile,
      (∀ tr ∈ m.tracks, ∀ e ∈ tr, e.dt.isSome ∧ e.t = none) →
      ∀ tr ∈ (convert_to_absolute_time m).tracks, ∀ e ∈ tr,
        e.t.isSome ∧ e.dt = none) ∧
    (∀ m : MidiFile,
      (∀ tr ∈ m.tracks, ∀ e ∈ tr, e.t.isSome ∧ e.dt = none) →
      ∀ tr ∈ (convert_to_relative_time m).tracks, ∀ e ∈ tr,
        e.dt.isSome ∧ e.t = none) := by
  constructor
  · intro m _ tr htr e he
    obtain ⟨h1, h2⟩ := mem_convert_abs m tr htr e he
    exact ⟨h2, h1⟩
  · intro m _ tr htr e he
    simp only [convert_to_relative_time] at htr
    rw [List.mem_map] at htr
    obtain ⟨tr2, _, rfl⟩ := htr
    exact mem_rel_track tr2 _ _ _ e he

/-- C8 witness: both converters applied to the example files. -/
theorem claim_C8_witness :
    (∀ tr ∈ (convert_to_absolute_time tempoSweepFile).tracks, ∀ e ∈ tr,
      e.t.isSome ∧ e.dt = none) ∧
    (∀ tr ∈ (convert_to_relative_time
        (convert_to_absolute_time tempoSweepFile)).tracks, ∀ e ∈ tr,
      e.dt.isSome ∧ e.t = none) :=
  ⟨claim_C8_mutual_exclusion.1 tempoSweepFile (by decide),
   claim_C8_mutual_exclusion.2 (convert_to_absolute_time tempoSweepFile)
     (by decide)⟩

theorem length_abs_ticks_go (l : List Event) :
    ∀ t, (convert_to_absolute_ticks_go t l).length = l.length := by
  induction l with
  | nil => intro t; rfl
  | cons x xs ih => intro t; simp [convert_to_absolute_ticks_go, ih]

theorem get?_abs_ticks_go_body (l : List Event) :
    ∀ (t : Int) (j : Nat),
      ((convert_to_absolute_ticks_go t l).get? j).map Event.body =
        (l.get? j).map Event.body := by
  induction l with
  | nil => intro t j; rfl
  | cons x xs ih =>
    intro t j
    cases j with
    | zero => rfl
    | succ j => exact ih _ j

theorem map_proj_time_sweep (l : List TaggedEvent) :
    ∀ (tpb tempo : Nat) (tct tcus : Int),
      (time_sweep tpb tempo tct tcus l).map (fun te => (te.1, te.2.body)) =
        l.map fun te => (te.1, te.2.body) := by
  induction l with
  | nil => intro tpb tempo tct tcus; rfl
  | cons x xs ih =>
    intro tpb tempo tct tcus
    rw [time_sweep]
    rcases hb : x.2.body with b1 | b2 | b3 | b4 | b5 | b6 | b7 | tp | b9 <;>
      simp [hb, ih]

theorem tagged_proj_mem (ts : List (List Event)) (i j : Nat) (b : EventBody)
    (h : ((i, j), b) ∈ (tag_tracks ts).map fun te => (te.1, te.2.body)) :
    ∃ tr e, ts.get? i = some tr ∧ tr.get? j = some e ∧ e.body = b := by
  rw [List.mem_map] at h
  obtain ⟨te, hte, hproj⟩ := h
  unfold tag_tracks at hte
  rw [List.mem_flatten] at hte
  obtain ⟨L, hL, hteL⟩ := hte
  rw [List.mem_map] at hL
  obtain ⟨⟨i0, tr⟩, hp, rfl⟩ := hL
  rw [List.mem_map] at hteL
  obtain ⟨⟨j0, e⟩, hq, rfl⟩ := hteL
  simp only [Prod.mk.injEq] at hproj
  obtain ⟨⟨hi, hj⟩, hb⟩ := hproj
  subst hi; subst hj
  exact ⟨tr, e, List.mk_mem_enum_iff_get?.mp hp,
    List.mk_mem_enum_iff_get?.mp hq, hb⟩

theorem get?_abs_ticks_body (tr : List Event) (j : Nat) :
    ((convert_to_absolute_ticks tr).get? j).map Event.body =
      (tr.get? j).map Event.body :=
  get?_abs_ticks_go_body tr 0 j

theorem length_abs_ticks (tr : List Event) :
    (convert_to_absolute_ticks tr).length = tr.length :=
  length_abs_ticks_go tr 0

/-- C9: the tick-to-microseconds converter keeps the file's format and
ticks-per-beat, keeps every track's length and event order, and rewrites
only each event's time field (bodies are untouched); the merged sorted list
of the tempo sweep never restructures the tracks. -/
theorem claim_C9_frame (m : MidiFile)
    (hmode : ∀ tr ∈ m.tracks, ∀ e ∈ tr, e.dt.isSome) :
    (convert_to_absolute_time m).format = m.format ∧
    (convert_to_absolute_time m).ticks_per_beat = m.ticks_per_beat ∧
    (convert_to_absolute_time m).tracks.length = m.tracks.length ∧
    (∀ i, ((convert_to_absolute_time m).tracks.get? i).map List.length =
      (m.tracks.get? i).map List.length) ∧
    (∀ i j, (((convert_to_absolute_time m).tracks.get? i).bind
        (fun tr => tr.get? j)).map Event.body =
      ((m.tracks.get? i).bind (fun tr => tr.get? j)).map Event.body) := by
  refine ⟨rfl, rfl, ?_, ?_, ?_⟩
  · simp [convert_to_absolute_time]
  · intro i
    simp only [convert_to_absolute_time, List.get?_map, List.enum_get?]
    cases hti : m.tracks.get? i with
    | none => rfl
    | some tr0 => simp [length_abs_ticks]
  · intro i j
    simp only [convert_to_absolute_time, List.get?_map, List.enum_get?]
    cases hti : m.tracks.get? i with
    | none => rfl
    | some tr0 =>
      simp only [Option.map_some', Option.some_bind, List.get?_map,
        List.enum_get?]
      rw [← get?_abs_ticks_body tr0 j]
      cases htj : (convert_to_absolute_ticks tr0).get? j with
      | none => rfl
      | some e1 =>
        simp only [htj, Option.map_some']
        show Option.map Event.body
          (some ((Option.map (fun x => x.2)
            (List.find? (fun te => decide (te.1 = (i, j)))
              (abs_time_swept m))).getD e1)) = some e1.body
        cases hf : (abs_time_swept m).find? fun te => decide (te.1 = (i, j)) with
        | none => simp [hf]
        | some te =>
          simp only [hf, Option.map_some', Option.getD_some, Option.map_some,
            Option.some.injEq]
          have htag : te.1 = (i, j) := by
            have := List.find?_some hf
            simpa using this
          have hmem := List.mem_of_find?_eq_some hf
          simp only [abs_time_swept] at hmem
          have hproj : ((i, j), te.2.body) ∈
              (tag_tracks (m.tracks.map convert_to_absolute_ticks)).map
                fun te => (te.1, te.2.body) := by
            have h1 := List.mem_map_of_mem (fun te => (te.1, te.2.body)) hmem
            rw [map_proj_time_sweep] at h1
            have h2 : (te.1, te.2.body) ∈
                (sort_by_t (tag_tracks
                  (m.tracks.map convert_to_absolute_ticks))).map
                  (fun te => (te.1, te.2.body)) := h1
            rw [htag] at h2
            exact ((sort_by_t_perm _).map _).mem_iff.mp h2
          obtain ⟨tr', e', htr', he', hbody⟩ :=
            tagged_proj_mem _ i j te.2.body hproj
          rw [List.get?_map, hti, Option.map_some', Option.some.injEq] at htr'
          subst htr'
          rw [htj, Option.some.injEq] at he'
          subst he'
          exact hbody.symm

/-- C9 witness: the frame conditions at the tempo-sweep example file. -/
theorem claim_C9_witness :
    (convert_to_absolute_time tempoSweepFile).format = tempoSweepFile.format ∧
    (convert_to_absolute_time tempoSweepFile).ticks_per_beat =
      tempoSweepFile.ticks_per_beat ∧
    (convert_to_absolute_time tempoSweepFile).tracks.length =
      tempoSweepFile.tracks.length ∧
    (∀ i, ((convert_to_absolute_time tempoSweepFile).tracks.get? i).map
        List.length = (tempoSweepFile.tracks.get? i).map List.length) ∧
    (∀ i j, (((convert_to_absolute_time tempoSweepFile).tracks.get? i).bind
        (fun tr => tr.get? j)).map Event.body =
      ((tempoSweepFile.tracks.get? i).bind (fun tr => tr.get? j)).map
        Event.body) :=
  claim_C9_frame tempoSweepFile (by decide)

theorem countP_rel_track (tpb tempo : Nat) (l : List Event) :
    ∀ t0, (rel_track tpb tempo t0 l).countP is_tempo_event =
      l.countP is_tempo_event := by
  induction l with
  | nil => intro t0; rfl
  | cons e es ih =>
    intro t0
    rw [rel_track]
    rw [List.countP_cons, List.countP_cons, ih]
    rfl

theorem countP_filter_tempo (l : List Event) :
    (l.filter fun e => !is_tempo_event e).countP is_tempo_event = 0 := by
  rw [List.countP_eq_zero]
  intro e he
  have := (List.mem_filter.mp he).2
  simp only [Bool.not_eq_true'] at this
  simp [this]

/-- The per-track loop of `convert_to_relative_time`, first event: its `dt`
is its own converted tick count minus the carried start. -/
theorem rel_track_get?_zero (tpb tempo : Nat) (l : List Event) (t0 : Int) :
    (rel_track tpb tempo t0 l).get? 0 =
      (l.get? 0).map fun e =>
        ⟨some (((e.t.getD 0) * (tpb : Int)).fdiv (tempo : Int) - t0),
          none, e.body⟩ := by
  cases l with
  | nil => rfl
  | cons e es => rfl

/-- The per-track loop of `convert_to_relative_time`, later events: each
`dt` is the difference between the event's converted ticks and its
predecessor's converted ticks. -/
theorem rel_track_get?_succ (tpb tempo : Nat) (l : List Event) :
    ∀ (t0 : Int) (j : Nat) (ep : Event), l.get? j = some ep →
      (rel_track tpb tempo t0 l).get? (j + 1) =
        (l.get? (j + 1)).map fun e =>
          ⟨some (((e.t.getD 0) * (tpb : Int)).fdiv (tempo : Int) -
            ((ep.t.getD 0) * (tpb : Int)).fdiv (tempo : Int)), none, e.body⟩ := by
  induction l with
  | nil => intro t0 j ep h; simp at h
  | cons e es ih =>
    intro t0 j ep h
    cases j with
    | zero =>
      have he : e = ep := by
        simp only [List.get?] at h
        exact (Option.some.injEq _ _).mp h
      subst he
      exact rel_track_get?_zero tpb tempo es _
    | succ j' =>
      have h' : es.get? j' = some ep := h
      exact ih _ j' ep h'

/-- C3: running a file with two distinct tempo changes through
`convert_to_absolute_time` then `convert_to_relative_time` leaves exactly
one tempo event, synthesized at the very start of track 0 and carrying the
effective tempo (first tempo event of track 0, else 500000); the second
tempo change is not reproduced; and each track's `dt` values are the
consecutive differences of `fdiv (micros * ticksPerBeat) tempo` under that
single constant tempo. -/
theorem claim_C3_to_relative_lossy (m0 : MidiFile)
    (hne : m0.tracks ≠ [])
    (htwo : ∃ t1 t2 : Nat, t1 ≠ t2 ∧
      (∃ tr ∈ m0.tracks, ∃ e ∈ tr, e.body = .tempo t1) ∧
      (∃ tr ∈ m0.tracks, ∃ e ∈ tr, e.body = .tempo t2)) :
    (((convert_to_relative_time (convert_to_absolute_time m0)).tracks.map
        fun tr => tr.countP is_tempo_event).sum = 1) ∧
    ((convert_to_relative_time (convert_to_absolute_time m0)).tracks.head?.bind
        List.head? =
      some ⟨some 0, none,
        .tempo (get_initial_tempo (convert_to_absolute_time m0))⟩) ∧
    (∀ i, (convert_to_relative_time (convert_to_absolute_time m0)).tracks.get? i =
      ((match (convert_to_absolute_time m0).tracks.map
            (fun track : List Event => track.filter fun e => !is_tempo_event e) with
        | [] => ([] : List (List Event))
        | tr0 :: rest =>
          ((⟨none, some 0,
              .tempo (get_initial_tempo (convert_to_absolute_time m0))⟩ : Event)
            :: tr0) :: rest).get? i).map
        (rel_track (convert_to_absolute_time m0).ticks_per_beat
          (get_initial_tempo (convert_to_absolute_time m0)) 0)) ∧
    (∀ (tr : List Event) (t0 : Int),
      (rel_track (convert_to_absolute_time m0).ticks_per_beat
          (get_initial_tempo (convert_to_absolute_time m0)) t0 tr).get? 0 =
        (tr.get? 0).map fun e =>
          ⟨some (((e.t.getD 0) *
              ((convert_to_absolute_time m0).ticks_per_beat : Int)).fdiv
              ((get_initial_tempo (convert_to_absolute_time m0)) : Int) - t0),
            none, e.body⟩) ∧
    (∀ (tr : List Event) (t0 : Int) (j : Nat) (ep : Event),
      tr.get? j = some ep →
      (rel_track (convert_to_absolute_time m0).ticks_per_beat
          (get_initial_tempo (convert_to_absolute_time m0)) t0 tr).get? (j + 1) =
        (tr.get? (j + 1)).map fun e =>
          ⟨some (((e.t.getD 0) *
              ((convert_to_absolute_time m0).ticks_per_beat : Int)).fdiv
              ((get_initial_tempo (convert_to_absolute_time m0)) : Int) -
            ((ep.t.getD 0) *
              ((convert_to_absolute_time m0).ticks_per_beat : Int)).fdiv
              ((get_initial_tempo (convert_to_absolute_time m0)) : Int)),
            none, e.body⟩) := by
  have hmne : (convert_to_absolute_time m0).tracks ≠ [] := by
    have hlen : (convert_to_absolute_time m0).tracks.length =
        m0.tracks.length := by
      simp [convert_to_absolute_time]
    intro hcon
    apply hne
    rw [hcon] at hlen
    exact List.length_eq_zero.mp hlen.symm
  refine ⟨?_, ?_, fun i => List.get?_map _ _ _,
    fun tr t0 => rel_track_get?_zero _ _ tr t0,
    fun tr t0 j ep h => rel_track_get?_succ _ _ tr t0 j ep h⟩
  · show ((List.map _ (convert_to_relative_time
      (convert_to_absolute_time m0)).tracks).sum = 1)
    rcases hmt : (convert_to_absolute_time m0).tracks with _ | ⟨mtr0, mtrs⟩
    · exact absurd hmt hmne
    rw [show (convert_to_relative_time (convert_to_absolute_time m0)).tracks =
      (match (convert_to_absolute_time m0).tracks.map
          (fun track : List Event => track.filter fun e => !is_tempo_event e) with
        | [] => ([] : List (List Event))
        | tr0 :: rest =>
          ((⟨none, some 0,
              .tempo (get_initial_tempo (convert_to_absolute_time m0))⟩ : Event)
            :: tr0) :: rest).map
        (rel_track (convert_to_absolute_time m0).ticks_per_beat
          (get_initial_tempo (convert_to_absolute_time m0)) 0) from rfl]
    rw [hmt]
    simp only [List.map_cons, List.map_map, List.sum_cons]
    rw [countP_rel_track]
    rw [List.countP_cons]
    have h1 : is_tempo_event
        (⟨none, some 0,
          .tempo (get_initial_tempo (convert_to_absolute_time m0))⟩ : Event) =
        true := rfl
    rw [countP_filter_tempo]
    have h2 : (List.map ((fun tr => List.countP is_tempo_event tr) ∘
        rel_track (convert_to_absolute_time m0).ticks_per_beat
          (get_initial_tempo (convert_to_absolute_time m0)) 0 ∘
        fun track => List.filter (fun e => !is_tempo_event e) track)
          mtrs).sum = 0 := by
      apply List.sum_eq_zero
      intro x hx
      rw [List.mem_map] at hx
      obtain ⟨tr, _, rfl⟩ := hx
      simp only [Function.comp]
      rw [countP_rel_track, countP_filter_tempo]
    rw [h2, if_pos h1]
  · rcases hmt : (convert_to_absolute_time m0).tracks with _ | ⟨mtr0, mtrs⟩
    · exact absurd hmt hmne
    rw [show (convert_to_relative_time (convert_to_absolute_time m0)).tracks =
      (match (convert_to_absolute_time m0).tracks.map
          (fun track : List Event => track.filter fun e => !is_tempo_event e) with
        | [] => ([] : List (List Event))
        | tr0 :: rest =>
          ((⟨none, some 0,
              .tempo (get_initial_tempo (convert_to_absolute_time m0))⟩ : Event)
            :: tr0) :: rest).map
        (rel_track (convert_to_absolute_time m0).ticks_per_beat
          (get_initial_tempo (convert_to_absolute_time m0)) 0) from rfl]
    rw [hmt]
    simp only [List.map_cons, List.head?_cons, Option.some_bind]
    rw [rel_track]
    simp [Int.zero_fdiv]

/-- C3 witness: the tempo-sweep example file carries two distinct tempo
changes (500000 and 250000); after the absolute/relative round trip exactly
one tempo event remains. -/
theorem claim_C3_witness :
    ((convert_to_relative_time
        (convert_to_absolute_time tempoSweepFile)).tracks.map
      fun tr => tr.countP is_tempo_event).sum = 1 :=
  (claim_C3_to_relative_lossy tempoSweepFile (by decide)
    ⟨500000, 250000, by decide,
      ⟨[⟨some 0, none, .tempo 500000⟩, ⟨some 480, none, .tempo 250000⟩,
          ⟨some 480, none, .note_on 0 60 100⟩], by decide,
        ⟨⟨some 0, none, .tempo 500000⟩, by decide, rfl⟩⟩,
      ⟨[⟨some 0, none, .tempo 500000⟩, ⟨some 480, none, .tempo 250000⟩,
          ⟨some 480, none, .note_on 0 60 100⟩], by decide,
        ⟨⟨some 480, none, .tempo 250000⟩, by decide, rfl⟩⟩⟩).1

end MidiUtil
